import Mathlib

/-!
Verification of the microfrontend platform registry, override-resolution
and manifest-URL model against its TypeScript sources.

The embedding below translates, function by function:
* `packages/platform/src/config.ts` (`createMfeRegistry`),
* the shell registry module (`mfe-registry.ts`: the concrete `mfeRegistry`,
  `mfeList`, `getMfe`, `hasMfe`, `getNextAvailablePort`),
* the remotes loop of `createShellConfig` in `packages/platform/src/vite.ts`,
* the runtime-config / dynamic-loader code embedded in
  `docs/DEV_WORKFLOW_SKETCH.md` (`parseOverridesFromUrl`,
  `parseOverridesFromStorage`, `getMfeOverrides`, `initMfeDynamicLoader`),
* the lazy-component cache of `apps/shell/src/components/MfeRoutes.tsx`
  (`mfeComponentCache` / `getMfeComponent`).

JavaScript plain objects and `Map`s are modelled as association lists with
in-place update (assignment to an existing key keeps its position and
replaces the value; assignment to a fresh key appends), which is exactly
the key-ordering and lookup semantics of JS objects/Maps for string keys.
-/

namespace MfePlatform

/-- Configuration record for one microfrontend, after
`packages/platform/src/types.ts` (`interface MfeConfig`). Optional fields
are `Option`s; `devPort` is a natural number. -/
structure MfeConfig where
  name : String
  displayName : String
  routePath : String
  devPort : Nat
  prodPath : Option String := none
  description : Option String := none
  team : Option String := none
deriving DecidableEq, Repr

/-- Association-list model of a JS object / `Map` with `α`-valued entries. -/
abbrev AssocMap (α : Type) : Type := List (String × α)

/-- Assignment `m[k] = v` on a JS object / `Map.set`: if the key is present
its (first) entry is replaced in place, otherwise the new entry is
appended. JS objects and `Map`s hold each key at most once, so "first
entry" is "the entry". -/
def assocSet {α : Type} : AssocMap α → String → α → AssocMap α
  | [], k, v => [(k, v)]
  | p :: m, k, v => if p.1 == k then (k, v) :: m else p :: assocSet m k v

/-- Key lookup `m[k]` / `Map.get`, `none` standing for `undefined`. -/
def assocLookup {α : Type} : AssocMap α → String → Option α
  | [], _ => none
  | p :: m, k => if p.1 == k then some p.2 else assocLookup m k

/-- Key list of the object (insertion order), `Object.keys`. -/
def assocKeys {α : Type} (m : AssocMap α) : List String := m.map Prod.fst

/-- Value list of the object (insertion order), `Object.values`. -/
def assocValues {α : Type} (m : AssocMap α) : List α := m.map Prod.snd

/-- Registry construction from `config.ts`:
`mfes.reduce((acc, mfe) => { acc[mfe.name] = mfe; return acc }, {})`. -/
def createMfeRegistry (mfes : List MfeConfig) : AssocMap MfeConfig :=
  mfes.foldl (fun acc mfe => assocSet acc mfe.name mfe) []

/-- The two concrete registry entries of the shell module `mfe-registry.ts`. -/
def mfe1Config : MfeConfig :=
  { name := "mfe1"
    displayName := "Product Catalog"
    routePath := "/mfe1"
    devPort := 3001
    team := some "commerce-team"
    description := some "Product catalog and inventory management" }

/-- Second registry entry of `mfe-registry.ts`. -/
def mfe2Config : MfeConfig :=
  { name := "mfe2"
    displayName := "User Management"
    routePath := "/mfe2"
    devPort := 3002
    team := some "identity-team"
    description := some "User profiles and role management" }

/-- The concrete shell registry, `createMfeRegistry([mfe1, mfe2])`. -/
def mfeRegistry : AssocMap MfeConfig := createMfeRegistry [mfe1Config, mfe2Config]

/-- All MFE configs as an array: `Object.values(mfeRegistry)`. -/
def mfeList : List MfeConfig := assocValues mfeRegistry

/-- Lookup by name: `getMfe(name) = mfeRegistry[name]` (undefined becomes
`none`). -/
def getMfe (name : String) : Option MfeConfig := assocLookup mfeRegistry name

/-- Membership test: `hasMfe(name) = name in mfeRegistry`. -/
def hasMfe (name : String) : Bool := (assocLookup mfeRegistry name).isSome

/-- Advisory next dev port of `mfe-registry.ts`, parametrised by the
snapshot: `Math.max(3000, ...mfes.map(m => m.devPort)) + 1`. -/
def getNextAvailablePort (mfes : List MfeConfig) : Nat :=
  (mfes.map (fun m => m.devPort)).foldl Nat.max 3000 + 1

/-- One override record `{ name, url }` of `runtime-config.ts` in
`docs/DEV_WORKFLOW_SKETCH.md`. -/
structure MfeOverride where
  name : String
  url : String
deriving DecidableEq, Repr

/-- Test for the regex `/^\d+$/`: the whole string is one or more digits. -/
def isAllDigits (s : String) : Bool :=
  s.length > 0 && s.data.all Char.isDigit

/-- Test for JS `value.startsWith("http")`. -/
def startsWithHttp (s : String) : Bool :=
  List.isPrefixOf "http".data s.data

/-- Splitting a character list at every separator occurrence, the
semantics of JS `String.prototype.split` with a one-character separator:
`"".split(c)` is `[""]`, and every separator occurrence opens a new
segment. -/
def charSplit (sep : Char) : List Char → List (List Char)
  | [] => [[]]
  | c :: rest =>
      let r := charSplit sep rest
      if c == sep then [] :: r
      else
        match r with
        | [] => [[c]]
        | seg :: segs => (c :: seg) :: segs

/-- JS `value.split(":")` as a list of strings. -/
def splitOnColon (s : String) : List String :=
  (charSplit ':' s.data).map (fun cs => { data := cs })

/-- Normalisation of the second `split(":")` segment, from
`parseOverridesFromUrl`: a purely numeric value becomes
`http://localhost:<value>`; a value starting with the four characters
`http` is kept as is; anything else gets `http://` prefixed. -/
def normalizeOverrideValue (urlOrPort : String) : String :=
  if isAllDigits urlOrPort then "http://localhost:" ++ urlOrPort
  else if startsWithHttp urlOrPort then urlOrPort
  else "http://" ++ urlOrPort

/-- Handling of one `mfe-override` query value in `parseOverridesFromUrl`:
`const [name, urlOrPort] = value.split(":")` takes only the first two
colon-separated segments (later segments are dropped); a falsy `name` or
`urlOrPort` (empty or absent) skips the entry. JS `split` always returns
at least one segment, and an absent second segment (JS `undefined`) is
falsy exactly like `""`. -/
def parseOverrideHint (value : String) : Option MfeOverride :=
  let parts := splitOnColon value
  let name := parts.getD 0 ""
  let urlOrPort := parts.getD 1 ""
  if name == "" || urlOrPort == "" then none
  else some { name := name, url := normalizeOverrideValue urlOrPort }

/-- Loop of `parseOverridesFromUrl` over all `mfe-override` query values
(the query string itself is passed in as the list of those values). -/
def parseOverridesFromUrl (hints : List String) : List MfeOverride :=
  hints.filterMap parseOverrideHint

/-- Body of `parseOverridesFromStorage`: the `JSON.parse` outcome of the
stored blob is passed in as an `Option` (a `catch`-ed parse failure or an
absent key is `none`), and any failure yields the empty list. -/
def parseOverridesFromStorage (parsed : Option (List MfeOverride)) : List MfeOverride :=
  parsed.getD []

/-- Folding a list of override records into a `Map` with `Map.set`, the
shape of both loops in `getMfeOverrides`. -/
def overrideMapOf (l : List MfeOverride) : AssocMap String :=
  l.foldl (fun m o => assocSet m o.name o.url) []

/-- Merge of `getMfeOverrides`: storage entries are `Map.set` first (lower
priority), then URL entries overwrite them. -/
def getMfeOverrides (storageParsed : Option (List MfeOverride))
    (urlHints : List String) : AssocMap String :=
  let storageOverrides := parseOverridesFromStorage storageParsed
  let urlOverrides := parseOverridesFromUrl urlHints
  let withStorage := storageOverrides.foldl (fun m o => assocSet m o.name o.url) []
  urlOverrides.foldl (fun m o => assocSet m o.name o.url) withStorage

/-- Remote entry URL computed for one registry entry by the loop of
`createShellConfig` in `vite.ts`: production uses `prodPath ?? routePath`,
development uses `http://localhost:<devPort>`, and `/mf-manifest.json` is
appended. -/
def shellRemoteEntry (isProd : Bool) (config : MfeConfig) : String :=
  let prodPath := config.prodPath.getD config.routePath
  let devUrl := "http://localhost:" ++ toString config.devPort
  (if isProd then prodPath else devUrl) ++ "/mf-manifest.json"

/-- Remote entry URL computed for one registry entry by
`initMfeDynamicLoader` in the dev-workflow sketch: an override target wins
and gets `/mf-manifest.json` appended; otherwise the entry is
`<defaultBaseUrl><prodPath ?? routePath>/mf-manifest.json`, with no
development branch. -/
def dynamicRemoteEntry (overrides : AssocMap String) (defaultBaseUrl : String)
    (name : String) (config : MfeConfig) : String :=
  match assocLookup overrides name with
  | some overrideUrl => overrideUrl ++ "/mf-manifest.json"
  | none =>
      defaultBaseUrl ++ (config.prodPath.getD config.routePath) ++ "/mf-manifest.json"

/-- Modelled from the spec: the three-branch manifest-URL resolver of the
specification (override first regardless of environment, then the
production location against the caller-supplied base origin, then the
development `localhost:<devPort>` URL). Stated from the words of the spec, for
comparison with `shellRemoteEntry` and `dynamicRemoteEntry` above. -/
def specResolveManifestUrl (overrides : AssocMap String) (isProd : Bool)
    (baseOrigin : String) (name : String) (config : MfeConfig) : String :=
  match assocLookup overrides name with
  | some overrideUrl => overrideUrl ++ "/mf-manifest.json"
  | none =>
      if isProd then
        baseOrigin ++ (config.prodPath.getD config.routePath) ++ "/mf-manifest.json"
      else
        "http://localhost:" ++ toString config.devPort ++ "/mf-manifest.json"

/-- Result of the lazy import thunk created inside `getMfeComponent` in
`MfeRoutes.tsx`: the `switch (mfeName)` resolves for the two registered
names and rejects with `Unknown MFE: <name>` for every other name. -/
def mfeImport (name : String) : Except String String :=
  if name == "mfe1" then Except.ok "mfe1/App"
  else if name == "mfe2" then Except.ok "mfe2/App"
  else Except.error ("Unknown MFE: " ++ name)

/-- State of the module-level `mfeComponentCache` of `MfeRoutes.tsx`. Each
call of the `lazy(...)` factory is a creation event; creations are counted
by `nextId`, and the component a cache entry holds is identified by the
`Nat` id its creation consumed. -/
structure LoaderState where
  cache : AssocMap Nat
  nextId : Nat
deriving DecidableEq, Repr

/-- Cache state at page-session start: the empty `Map`. -/
def initLoaderState : LoaderState := { cache := [], nextId := 0 }

/-- Body of `getMfeComponent(mfeName)`: when the cache has no entry for the
name, a fresh lazy component is created and `Map.set` into the cache; the
call returns `cache.get(mfeName)`. -/
def getMfeComponent (name : String) (s : LoaderState) : Nat × LoaderState :=
  match assocLookup s.cache name with
  | some id => (id, s)
  | none =>
      (s.nextId, { cache := assocSet s.cache name s.nextId, nextId := s.nextId + 1 })

/-- State after a sequence of `getMfeComponent` calls. -/
def runLoader (names : List String) (s : LoaderState) : LoaderState :=
  names.foldl (fun st n => (getMfeComponent n st).2) s

/-- Left-biased choice on options, the shape of "first match wins". -/
def optOr {α : Type} : Option α → Option α → Option α
  | some x, _ => some x
  | none, b => b

/-- Maximum registered dev port of a snapshot (0 for the empty snapshot). -/
def maxDevPort (mfes : List MfeConfig) : Nat :=
  (mfes.map (fun m => m.devPort)).foldl Nat.max 0

/-- Number of entries of the map that carry the given key. -/
def countKeys {α : Type} (m : AssocMap α) (k : String) : Nat :=
  (assocKeys m).count k

/-- Variant of `mfe1Config` differing only in its display name; its `name`
collides with `mfe1Config`. -/
def altMfe1Config : MfeConfig := { mfe1Config with displayName := "Other Catalog" }

section Lemmas

variable {α β : Type}

theorem assocLookup_set (m : AssocMap α) (k : String) (v : α) (q : String) :
    assocLookup (assocSet m k v) q = if k = q then some v else assocLookup m q := by
  induction m with
  | nil => simp [assocSet, assocLookup]
  | cons p m ih =>
    by_cases hp : p.1 = k <;> by_cases hq : k = q <;>
      simp_all [assocSet, assocLookup]

theorem assocLookup_none_set (m : AssocMap α) (k : String) (v : α)
    (h : assocLookup m k = none) : assocSet m k v = m ++ [(k, v)] := by
  induction m with
  | nil => rfl
  | cons p m ih =>
    by_cases hp : p.1 = k <;> simp_all [assocSet, assocLookup]

theorem assocLookup_append (m₁ m₂ : AssocMap α) (q : String) :
    assocLookup (m₁ ++ m₂) q = optOr (assocLookup m₁ q) (assocLookup m₂ q) := by
  induction m₁ with
  | nil => simp [assocLookup, optOr]
  | cons p m ih =>
    simp only [List.cons_append, assocLookup]
    by_cases h : p.1 = q <;> simp [h, optOr, ih]

theorem optOr_assoc (a b c : Option α) :
    optOr (optOr a b) c = optOr a (optOr b c) := by
  cases a <;> simp [optOr]

theorem assocKeys_append (m₁ m₂ : AssocMap α) :
    assocKeys (m₁ ++ m₂) = assocKeys m₁ ++ assocKeys m₂ := by
  simp [assocKeys]

theorem mem_assocKeys_iff (m : AssocMap α) (q : String) :
    q ∈ assocKeys m ↔ (assocLookup m q).isSome := by
  induction m with
  | nil => simp [assocKeys, assocLookup]
  | cons p m ih =>
    have hk : assocKeys (p :: m) = p.1 :: assocKeys m := rfl
    rw [hk]
    by_cases h : p.1 = q
    · simp [assocLookup, h]
    · simp [assocLookup, h, Ne.symm h, ih]

theorem foldl_set_lookup (keyf : β → String) (valf : β → α) :
    ∀ (l : List β) (m : AssocMap α) (q : String),
      assocLookup (l.foldl (fun acc x => assocSet acc (keyf x) (valf x)) m) q
        = optOr (assocLookup (l.foldl (fun acc x => assocSet acc (keyf x) (valf x)) []) q)
            (assocLookup m q) := by
  intro l
  induction l with
  | nil => intro m q; simp [assocLookup, optOr]
  | cons x l ih =>
    intro m q
    simp only [List.foldl_cons]
    rw [ih (assocSet m (keyf x) (valf x)) q, ih (assocSet [] (keyf x) (valf x)) q,
      optOr_assoc]
    congr 1
    rw [assocLookup_set, assocLookup_set]
    by_cases h : keyf x = q <;> simp [h, assocLookup, optOr]

theorem find?_append_opt (l₁ l₂ : List α) (p : α → Bool) :
    (l₁ ++ l₂).find? p = optOr (l₁.find? p) (l₂.find? p) := by
  induction l₁ with
  | nil => simp [optOr]
  | cons x l ih =>
    by_cases h : p x <;> simp [List.find?, h, ih, optOr]

theorem registry_foldl_lookup (l : List MfeConfig) (m : AssocMap MfeConfig) (q : String) :
    assocLookup (l.foldl (fun acc mfe => assocSet acc mfe.name mfe) m) q
      = optOr (assocLookup (createMfeRegistry l) q) (assocLookup m q) :=
  foldl_set_lookup (fun mfe => mfe.name) (fun mfe => mfe) l m q

theorem createMfeRegistry_lookup (l : List MfeConfig) (q : String) :
    assocLookup (createMfeRegistry l) q
      = l.reverse.find? (fun c => c.name == q) := by
  induction l with
  | nil => rfl
  | cons c l ih =>
    have h1 : assocLookup (createMfeRegistry (c :: l)) q
        = optOr (assocLookup (createMfeRegistry l) q)
            (assocLookup (assocSet [] c.name c) q) :=
      registry_foldl_lookup l (assocSet [] c.name c) q
    rw [List.reverse_cons, find?_append_opt, h1, ih]
    congr 1
    by_cases h : c.name = q
    · simp [assocSet, assocLookup, List.find?, h]
    · have hb : (c.name == q) = false := by simp [h]
      simp [assocSet, assocLookup, List.find?, h, hb]

theorem assocSet_entry_prop {P : String × α → Prop} :
    ∀ (m : AssocMap α) (k : String) (v : α), (∀ p ∈ m, P p) → P (k, v) →
      ∀ p ∈ assocSet m k v, P p := by
  intro m
  induction m with
  | nil =>
    intro k v _ hkv p hp
    simp only [assocSet, List.mem_singleton] at hp
    exact hp ▸ hkv
  | cons r m ih =>
    intro k v hm hkv p hp
    by_cases h : r.1 = k
    · rw [show assocSet (r :: m) k v = (k, v) :: m by simp [assocSet, h]] at hp
      rcases List.mem_cons.1 hp with h1 | h1
      · exact h1 ▸ hkv
      · exact hm p (List.mem_cons_of_mem r h1)
    · rw [show assocSet (r :: m) k v = r :: assocSet m k v by simp [assocSet, h]] at hp
      rcases List.mem_cons.1 hp with h1 | h1
      · exact h1 ▸ hm r (List.mem_cons_self r m)
      · exact ih k v (fun x hx => hm x (List.mem_cons_of_mem r hx)) hkv p h1

theorem createMfeRegistry_entry_names (l : List MfeConfig) :
    ∀ p ∈ createMfeRegistry l, p.2.name = p.1 := by
  suffices h : ∀ (l : List MfeConfig) (m : AssocMap MfeConfig),
      (∀ p ∈ m, p.2.name = p.1) →
      ∀ p ∈ l.foldl (fun acc mfe => assocSet acc mfe.name mfe) m, p.2.name = p.1 by
    exact h l [] (by simp)
  intro l
  induction l with
  | nil => intro m hm; simpa using hm
  | cons c l ih =>
    intro m hm
    exact ih _ (assocSet_entry_prop m c.name c hm rfl)

theorem foldl_set_all_nodup :
    ∀ (l : List MfeConfig) (m : AssocMap MfeConfig),
      (l.map (fun c => c.name)).Nodup →
      (∀ c ∈ l, assocLookup m c.name = none) →
      l.foldl (fun acc mfe => assocSet acc mfe.name mfe) m
        = m ++ l.map (fun c => (c.name, c)) := by
  intro l
  induction l with
  | nil => intro m _ _; simp
  | cons c l ih =>
    intro m hnd hm
    have hmc : assocLookup m c.name = none := hm c (List.mem_cons_self c l)
    have hset : assocSet m c.name c = m ++ [(c.name, c)] :=
      assocLookup_none_set m c.name c hmc
    have hnotin : c.name ∉ l.map (fun c => c.name) :=
      (List.nodup_cons.1 (by simpa using hnd)).1
    have hnd' : (l.map (fun c => c.name)).Nodup :=
      (List.nodup_cons.1 (by simpa using hnd)).2
    have hm' : ∀ d ∈ l, assocLookup (m ++ [(c.name, c)]) d.name = none := by
      intro d hd
      rw [assocLookup_append]
      have h1 : assocLookup m d.name = none := hm d (List.mem_cons_of_mem c hd)
      have h2 : c.name ≠ d.name := by
        intro he
        exact hnotin (he ▸ List.mem_map_of_mem (fun c => c.name) hd)
      simp [h1, assocLookup, h2, optOr]
    rw [List.foldl_cons, hset, ih (m ++ [(c.name, c)]) hnd' hm']
    simp

theorem lookup_map_pair :
    ∀ (l : List MfeConfig), (l.map (fun c => c.name)).Nodup →
      ∀ c ∈ l, assocLookup (l.map (fun c => (c.name, c))) c.name = some c := by
  intro l
  induction l with
  | nil => simp
  | cons a l ih =>
    intro hnd c hc
    rcases List.mem_cons.1 hc with rfl | hc'
    · simp [assocLookup]
    · have hna : a.name ∉ l.map (fun c => c.name) :=
        (List.nodup_cons.1 (by simpa using hnd)).1
      have hne : a.name ≠ c.name := by
        intro he
        exact hna (he ▸ List.mem_map_of_mem (fun c => c.name) hc')
      simp only [List.map_cons, assocLookup]
      rw [if_neg (by simpa using hne)]
      exact ih (List.nodup_cons.1 (by simpa using hnd)).2 c hc'

theorem foldl_max_init (xs : List Nat) : ∀ (a b : Nat),
    xs.foldl Nat.max (Nat.max a b) = Nat.max a (xs.foldl Nat.max b) := by
  induction xs with
  | nil => intro a b; rfl
  | cons x xs ih =>
    intro a b
    simp only [List.foldl_cons]
    have hassoc : Nat.max (Nat.max a b) x = Nat.max a (Nat.max b x) := Nat.max_assoc a b x
    rw [hassoc, ih]

theorem le_foldl_max (xs : List Nat) : ∀ a, a ≤ xs.foldl Nat.max a := by
  induction xs with
  | nil => intro a; exact Nat.le_refl a
  | cons x xs ih =>
    intro a
    exact Nat.le_trans (Nat.le_max_left a x) (ih (Nat.max a x))

theorem mem_le_foldl_max (xs : List Nat) : ∀ (a x : Nat), x ∈ xs → x ≤ xs.foldl Nat.max a := by
  induction xs with
  | nil => intro a x hx; cases hx
  | cons y xs ih =>
    intro a x hx
    rcases List.mem_cons.1 hx with rfl | hx'
    · exact Nat.le_trans (Nat.le_max_right a x) (le_foldl_max xs (Nat.max a x))
    · exact ih (Nat.max a y) x hx'

theorem getMfeComponent_lookup (n : String) (s : LoaderState) :
    assocLookup (getMfeComponent n s).2.cache n = some (getMfeComponent n s).1 := by
  unfold getMfeComponent
  cases h : assocLookup s.cache n with
  | some id => simp [h]
  | none => simp [h, assocLookup_set]

theorem getMfeComponent_lookup_mono (n q : String) (x : Nat) (s : LoaderState)
    (h : assocLookup s.cache q = some x) :
    assocLookup (getMfeComponent n s).2.cache q = some x := by
  unfold getMfeComponent
  cases hn : assocLookup s.cache n with
  | some id => simpa [hn] using h
  | none =>
    simp only [hn]
    rw [assocLookup_set]
    by_cases hq : n = q
    · subst hq; rw [h] at hn; cases hn
    · simpa [hq] using h

theorem runLoader_lookup_mono (names : List String) :
    ∀ (s : LoaderState) (q : String) (x : Nat),
      assocLookup s.cache q = some x →
      assocLookup (runLoader names s).cache q = some x := by
  induction names with
  | nil => intro s q x h; exact h
  | cons n names ih =>
    intro s q x h
    exact ih _ q x (getMfeComponent_lookup_mono n q x s h)

theorem getMfeComponent_cache_extend (n : String) (s : LoaderState) :
    ∃ t, (getMfeComponent n s).2.cache = s.cache ++ t := by
  unfold getMfeComponent
  cases hn : assocLookup s.cache n with
  | some id => exact ⟨[], by simp⟩
  | none =>
    exact ⟨[(n, s.nextId)], by simp [assocLookup_none_set s.cache n s.nextId hn]⟩

theorem runLoader_cache_extend (names : List String) :
    ∀ (s : LoaderState), ∃ t, (runLoader names s).cache = s.cache ++ t := by
  induction names with
  | nil => intro s; exact ⟨[], by simp [runLoader]⟩
  | cons n names ih =>
    intro s
    obtain ⟨t₁, h₁⟩ := getMfeComponent_cache_extend n s
    obtain ⟨t₂, h₂⟩ := ih (getMfeComponent n s).2
    refine ⟨t₁ ++ t₂, ?_⟩
    rw [show runLoader (n :: names) s = runLoader names (getMfeComponent n s).2 from rfl,
      h₂, h₁, List.append_assoc]

theorem getMfeComponent_keys_nodup (n : String) (s : LoaderState)
    (h : (assocKeys s.cache).Nodup) :
    (assocKeys (getMfeComponent n s).2.cache).Nodup := by
  unfold getMfeComponent
  cases hn : assocLookup s.cache n with
  | some id => simpa using h
  | none =>
    simp only
    rw [assocLookup_none_set s.cache n s.nextId hn, assocKeys_append]
    have hmem : n ∉ assocKeys s.cache := by
      rw [mem_assocKeys_iff, hn]
      simp
    simp [assocKeys, List.nodup_append, hmem]
    exact ⟨h, fun x hx => hmem (List.mem_map_of_mem Prod.fst hx)⟩

theorem runLoader_keys_nodup (names : List String) :
    ∀ (s : LoaderState), (assocKeys s.cache).Nodup →
      (assocKeys (runLoader names s).cache).Nodup := by
  induction names with
  | nil => intro s h; exact h
  | cons n names ih =>
    intro s h
    exact ih _ (getMfeComponent_keys_nodup n s h)

theorem getMfeComponent_of_lookup (n : String) (s : LoaderState) (x : Nat)
    (h : assocLookup s.cache n = some x) : (getMfeComponent n s).1 = x := by
  unfold getMfeComponent
  rw [h]

theorem foldl_max_3000 (xs : List Nat) :
    xs.foldl Nat.max 3000 = Nat.max 3000 (xs.foldl Nat.max 0) := by
  have h := foldl_max_init xs 3000 0
  simpa using h

end Lemmas

section Claims

/-- C1, counterexample: a registration list in which the name `mfe1`
occurs twice does not fail `createMfeRegistry`: a store is returned, and
it holds only the later of the two same-named configs, so a store
containing only some of the inputs is observable. -/
theorem registry_duplicate_partial_store :
    assocValues (createMfeRegistry [mfe1Config, altMfe1Config]) = [altMfe1Config]
      ∧ mfe1Config ≠ altMfe1Config := by
  refine ⟨by decide, by decide⟩

/-- C1, amended: registry construction never fails on a duplicate name;
the later config silently overwrites the earlier one, so an earlier
duplicate has no effect on the final mapping for that name (partial
stores are observable rather than prevented). -/
theorem registry_duplicate_overwrites (l : List MfeConfig) (a : MfeConfig)
    (h : ∃ b ∈ l, b.name = a.name) :
    assocLookup (createMfeRegistry (a :: l)) a.name
      = assocLookup (createMfeRegistry l) a.name := by
  have h1 : assocLookup (createMfeRegistry (a :: l)) a.name
      = optOr (assocLookup (createMfeRegistry l) a.name)
          (assocLookup (assocSet [] a.name a) a.name) :=
    registry_foldl_lookup l (assocSet [] a.name a) a.name
  rw [h1]
  obtain ⟨b, hb, hname⟩ := h
  have h2 : (assocLookup (createMfeRegistry l) a.name).isSome = true := by
    rw [createMfeRegistry_lookup, List.find?_isSome]
    exact ⟨b, List.mem_reverse.2 hb, by simp [hname]⟩
  cases hx : assocLookup (createMfeRegistry l) a.name with
  | some w => rfl
  | none => rw [hx] at h2; simp at h2

/-- Witness for `registry_duplicate_overwrites` at a concrete duplicate
list. -/
theorem registry_duplicate_overwrites_witness :
    assocLookup (createMfeRegistry (mfe1Config :: [altMfe1Config])) mfe1Config.name
      = assocLookup (createMfeRegistry [altMfe1Config]) mfe1Config.name :=
  registry_duplicate_overwrites [altMfe1Config] mfe1Config
    ⟨altMfe1Config, by decide, by decide⟩

/-- C10: for every input list, lookup in the result of `createMfeRegistry` at
any key equals the last config in input order whose name is that key; the
key set is exactly the set of names occurring in the list; and every
entry of the store holds a config whose name equals the key of that entry. -/
theorem registry_last_wins (l : List MfeConfig) (q : String) :
    assocLookup (createMfeRegistry l) q = l.reverse.find? (fun c => c.name == q)
      ∧ (q ∈ assocKeys (createMfeRegistry l) ↔ q ∈ l.map (fun c => c.name))
      ∧ (∀ p ∈ createMfeRegistry l, p.2.name = p.1) := by
  refine ⟨createMfeRegistry_lookup l q, ?_, createMfeRegistry_entry_names l⟩
  rw [mem_assocKeys_iff, createMfeRegistry_lookup, List.find?_isSome]
  constructor
  · rintro ⟨c, hc, hp⟩
    exact List.mem_map.2 ⟨c, List.mem_reverse.1 hc, by simpa using hp⟩
  · intro hq
    obtain ⟨c, hc, hn⟩ := List.mem_map.1 hq
    exact ⟨c, List.mem_reverse.2 hc, by simp [hn]⟩

/-- Witness for `registry_last_wins` at the concrete shell registry. -/
theorem registry_last_wins_witness :
    assocLookup (createMfeRegistry [mfe1Config, mfe2Config]) "mfe2" = some mfe2Config
      ∧ ("mfe2", mfe2Config).2.name = ("mfe2", mfe2Config).1 :=
  ⟨(registry_last_wins [mfe1Config, mfe2Config] "mfe2").1.trans (by decide),
   (registry_last_wins [mfe1Config, mfe2Config] "mfe2").2.2 ("mfe2", mfe2Config)
     (by decide)⟩

/-- C8: for every registration list with pairwise-distinct names and route
paths, lookup of the name of each input returns exactly that input, and the
value sequence of the store is the input list in its original order. -/
theorem registry_unique_roundtrip (l : List MfeConfig)
    (hn : (l.map (fun c => c.name)).Nodup)
    (_hr : (l.map (fun c => c.routePath)).Nodup) :
    (∀ c ∈ l, assocLookup (createMfeRegistry l) c.name = some c)
      ∧ assocValues (createMfeRegistry l) = l := by
  have hreg : createMfeRegistry l = l.map (fun c => (c.name, c)) := by
    have h := foldl_set_all_nodup l [] hn (fun c _ => rfl)
    simpa using h
  constructor
  · intro c hc
    rw [hreg]
    exact lookup_map_pair l hn c hc
  · rw [hreg]
    have hmm : ∀ (cs : List MfeConfig),
        assocValues (cs.map (fun c => (c.name, c))) = cs := by
      intro cs
      induction cs with
      | nil => rfl
      | cons a t iht => simpa [assocValues] using iht
    exact hmm l

/-- Witness for `registry_unique_roundtrip` at the concrete shell
registry list. -/
theorem registry_unique_roundtrip_witness :
    assocValues (createMfeRegistry [mfe1Config, mfe2Config]) = [mfe1Config, mfe2Config] :=
  (registry_unique_roundtrip [mfe1Config, mfe2Config] (by decide) (by decide)).2

/-- C7, counterexample: on the empty registry `getNextAvailablePort`
returns 3001, not the floor value 3000 the claim states; and on a
registry whose single dev port is 100 it returns 3001, not 101, so the
"one greater than the maximum devPort" clause also fails below the
floor. -/
theorem next_port_counterexample :
    getNextAvailablePort [] = 3001 ∧ (3001 : Nat) ≠ 3000
      ∧ getNextAvailablePort [{ mfe1Config with devPort := 100 }] = 3001
      ∧ maxDevPort [{ mfe1Config with devPort := 100 }] + 1 = 101
      ∧ (3001 : Nat) ≠ 101 := by
  refine ⟨by decide, by decide, by decide, by decide, by decide⟩

/-- C7, amended: `getNextAvailablePort` returns
`max 3000 (maximum registered devPort) + 1`; in particular it returns one
greater than the maximum devPort whenever some registered devPort is at
least 3000, and 3001 otherwise — including on the empty registry. -/
theorem next_port_amended (l : List MfeConfig) :
    getNextAvailablePort l = Nat.max 3000 (maxDevPort l) + 1
      ∧ (l = [] → getNextAvailablePort l = 3001)
      ∧ ((∃ c ∈ l, 3000 ≤ c.devPort) → getNextAvailablePort l = maxDevPort l + 1) := by
  have hmain : getNextAvailablePort l = Nat.max 3000 (maxDevPort l) + 1 := by
    unfold getNextAvailablePort maxDevPort
    rw [foldl_max_3000]
  refine ⟨hmain, ?_, ?_⟩
  · rintro rfl; decide
  · rintro ⟨c, hc, hport⟩
    rw [hmain]
    have hle : 3000 ≤ maxDevPort l := by
      unfold maxDevPort
      exact Nat.le_trans hport
        (mem_le_foldl_max (l.map (fun m => m.devPort)) 0 c.devPort
          (List.mem_map_of_mem (fun m => m.devPort) hc))
    have hmax : Nat.max 3000 (maxDevPort l) = maxDevPort l := Nat.max_eq_right hle
    rw [hmax]

/-- Witness for `next_port_amended` at the concrete one-entry registry. -/
theorem next_port_witness : getNextAvailablePort [mfe1Config] = 3002 := by
  have h := (next_port_amended [mfe1Config]).2.2 ⟨mfe1Config, by decide, by decide⟩
  exact h.trans (by decide)

/-- C2, counterexample: in development with no override, the runtime
dynamic loader of the dev-workflow sketch resolves `mfe1` to the
caller-supplied base URL plus the production path
(`http://localhost:3000/mfe1/mf-manifest.json`), not to the claimed
development URL `http://localhost:3001/mf-manifest.json` built from
`devPort`. -/
theorem manifest_resolution_counterexample :
    dynamicRemoteEntry [] "http://localhost:3000" "mfe1" mfe1Config
        = "http://localhost:3000/mfe1/mf-manifest.json"
      ∧ specResolveManifestUrl [] false "http://localhost:3000" "mfe1" mfe1Config
        = "http://localhost:3001/mf-manifest.json"
      ∧ dynamicRemoteEntry [] "http://localhost:3000" "mfe1" mfe1Config
        ≠ specResolveManifestUrl [] false "http://localhost:3000" "mfe1" mfe1Config := by
  refine ⟨by decide, by decide, by decide⟩

/-- C2, amended: the override branch and the production branch hold as
claimed — the dynamic loader behaves exactly like the resolver of the spec in
production mode, for every environment (an override target always wins
and gets `/mf-manifest.json` appended; otherwise
`prodPath ?? routePath` is resolved against the caller-supplied base
URL). The devPort-based development URL arises only in the build-time
shell configuration, which consults no overrides. -/
theorem manifest_resolution_amended (overrides : AssocMap String)
    (defaultBaseUrl : String) (name : String) (config : MfeConfig) (isProd : Bool) :
    dynamicRemoteEntry overrides defaultBaseUrl name config
        = specResolveManifestUrl overrides true defaultBaseUrl name config
      ∧ shellRemoteEntry isProd config = specResolveManifestUrl [] isProd "" name config := by
  constructor
  · unfold dynamicRemoteEntry specResolveManifestUrl
    cases assocLookup overrides name <;> rfl
  · unfold shellRemoteEntry specResolveManifestUrl
    cases isProd <;> rfl

/-- C3, counterexample: a persisted hint value is used verbatim,
not normalized: the persisted entry `{mfe1: "9999"}` with no session hint
resolves to `"9999"`, although normalization of `"9999"` yields
`http://localhost:9999`. -/
theorem override_merge_counterexample :
    assocLookup (getMfeOverrides (some [{ name := "mfe1", url := "9999" }]) []) "mfe1"
        = some "9999"
      ∧ normalizeOverrideValue "9999" = "http://localhost:9999"
      ∧ ("9999" : String) ≠ "http://localhost:9999" := by
  refine ⟨by decide, by decide, by decide⟩

/-- C3, amended: for every pair of hint sets and every name, the merged
override mapping holds the parsed-and-normalized session (URL) hint
location when one exists for that name, and otherwise the stored persisted
hint location verbatim — session strictly beats persisted; in
particular persisted `{mfe1: "9999"}` plus session hint `mfe1:8888`
resolves `mfe1` to `http://localhost:8888`. -/
theorem override_merge_amended (storageParsed : Option (List MfeOverride))
    (urlHints : List String) (q : String) :
    assocLookup (getMfeOverrides storageParsed urlHints) q
        = optOr (assocLookup (overrideMapOf (parseOverridesFromUrl urlHints)) q)
            (assocLookup (overrideMapOf (parseOverridesFromStorage storageParsed)) q)
      ∧ assocLookup
          (getMfeOverrides (some [{ name := "mfe1", url := "9999" }]) ["mfe1:8888"])
          "mfe1" = some "http://localhost:8888" := by
  constructor
  · exact foldl_set_lookup (fun o => o.name) (fun o => o.url)
      (parseOverridesFromUrl urlHints)
      ((parseOverridesFromStorage storageParsed).foldl
        (fun m o => assocSet m o.name o.url) []) q
  · decide

/-- C4: evaluated at the documented input format
`mfe-override=mfe1:http://localhost:3001`, the parser truncates the value
at the first colon: the override target becomes `"http"`, not the
documented full URL — even though `normalizeOverrideValue` itself would
keep a scheme-carrying value unchanged. -/
theorem override_scheme_value_truncated :
    parseOverridesFromUrl ["mfe1:http://localhost:3001"]
        = [{ name := "mfe1", url := "http" }]
      ∧ ({ name := "mfe1", url := "http" } : MfeOverride).url ≠ "http://localhost:3001"
      ∧ normalizeOverrideValue "http://localhost:3001" = "http://localhost:3001" := by
  refine ⟨by decide, by decide, by decide⟩

/-- C5: malformed session hints are skipped without error (parsing a hint
list equals parsing the well-formed hints only), an unparseable persisted
blob contributes the empty set, a colonless hint `mfe1` produces no
override for `mfe1`, and other entries in the same list are still
processed. -/
theorem override_malformed_tolerance (hints : List String) :
    parseOverridesFromUrl hints
        = parseOverridesFromUrl (hints.filter (fun v => (parseOverrideHint v).isSome))
      ∧ parseOverridesFromStorage none = []
      ∧ assocLookup (getMfeOverrides none ["mfe1"]) "mfe1" = none
      ∧ parseOverridesFromUrl ["mfe1", "mfe2:3002"]
        = [{ name := "mfe2", url := "http://localhost:3002" }] := by
  refine ⟨?_, rfl, by decide, by decide⟩
  unfold parseOverridesFromUrl
  induction hints with
  | nil => rfl
  | cons x t ih =>
    cases hx : parseOverrideHint x <;>
      simp [List.filter, List.filterMap, hx, ih]

/-- C6: for every name absent from the registry store, lookup yields
not-found (`none`) and the per-name lazy import rejects with an
`Unknown MFE` error rather than producing a module. -/
theorem unknown_mfe_not_found (name : String) (h : hasMfe name = false) :
    getMfe name = none
      ∧ mfeImport name = Except.error ("Unknown MFE: " ++ name) := by
  have hnone : assocLookup mfeRegistry name = none := by
    unfold hasMfe at h
    cases hx : assocLookup mfeRegistry name with
    | none => rfl
    | some c => rw [hx] at h; simp at h
  refine ⟨hnone, ?_⟩
  have h1 : name ≠ "mfe1" := by
    intro he
    rw [he] at hnone
    exact absurd hnone (by decide)
  have h2 : name ≠ "mfe2" := by
    intro he
    rw [he] at hnone
    exact absurd hnone (by decide)
  simp [mfeImport, h1, h2]

/-- Witness for `unknown_mfe_not_found` at the unregistered name
`nonexistent`. -/
theorem unknown_mfe_not_found_witness :
    getMfe "nonexistent" = none
      ∧ mfeImport "nonexistent" = Except.error ("Unknown MFE: " ++ "nonexistent") :=
  unknown_mfe_not_found "nonexistent" (by decide)

/-- C9: the per-name lazy-component cache is memoized, idempotent and
append-only: within one page session a repeated `getMfeComponent` call
for the same name — with any calls in between — returns the identical
cached component id; any call sequence only ever appends to the cache;
and starting from the empty session cache the factory for each name is created
at most once (at most one cache entry per name ever exists). -/
theorem loader_cache_memoized (pre mid : List String) (n : String)
    (names : List String) (s : LoaderState) (q : String) :
    (getMfeComponent n (runLoader mid (getMfeComponent n (runLoader pre initLoaderState)).2)).1
        = (getMfeComponent n (runLoader pre initLoaderState)).1
      ∧ (∃ t, (runLoader names s).cache = s.cache ++ t)
      ∧ countKeys (runLoader names initLoaderState).cache q ≤ 1 := by
  refine ⟨?_, runLoader_cache_extend names s, ?_⟩
  · have h1 := getMfeComponent_lookup n (runLoader pre initLoaderState)
    have h2 := runLoader_lookup_mono mid
      (getMfeComponent n (runLoader pre initLoaderState)).2 n
      (getMfeComponent n (runLoader pre initLoaderState)).1 h1
    exact getMfeComponent_of_lookup n _ _ h2
  · have hnd : (assocKeys (runLoader names initLoaderState).cache).Nodup :=
      runLoader_keys_nodup names initLoaderState (by simp [initLoaderState, assocKeys])
    exact List.nodup_iff_count_le_one.1 hnd q

end Claims

end MfePlatform
